import Mathlib

/-!
# Verification of the picsteg steganography core (src/utils.rs)

Shallow embedding of the Rust source:

* an `RgbImage` is modelled as a `Grid`, a row-major list of pixels, each pixel
  an ordered triple of 8-bit channel values (`Fin 256`), matching the order in
  which `image.pixels()` / `pixels_mut()` and `pixel.0.iter()` walk the buffer;
* the Rust `'0'/'1'` bit string is modelled as `List Bool` (`true` = `'1'`),
  MSB first, exactly the order `to_binary` produces;
* Rust `String` text is modelled as `List Char` (a Rust `String` is a sequence
  of Unicode scalar values); `String::into_bytes` is modelled by `utf8Bytes`,
  the standard UTF-8 encoding of those scalar values;
* `i8`/`usize` arithmetic is modelled on `Int`/`Nat` with explicit wrapping
  (`wrap8`, `toUsize`) at the `as` casts the source performs;
* a Rust `panic!` is an `Except.error`: the panic messages of `encode_image` /
  `decode_image` and the out-of-range string-slice panics are distinguished by
  the error constructors below.
-/

/-- One 8-bit color channel (`u8`). -/
abbrev Channel := Fin 256

/-- One RGB pixel: the three channel values in the fixed order `pixel.0` yields. -/
abbrev Pixel := Channel × Channel × Channel

/-- A pixel grid in row-major order (the iteration order of `image.pixels()`). -/
abbrev Grid := List Pixel

/-- The flat channel walk of a grid: pixels in row-major order, channels in
fixed order within a pixel.  Both source loops (`for pixel in image.pixels()`
`for color in pixel.0.iter()`) traverse exactly this sequence. -/
def channelsOf (g : Grid) : List Channel :=
  g.flatMap fun p => [p.1, p.2.1, p.2.2]

/-- Rebuild a grid from a flat channel list (inverse of `channelsOf` on lists
whose length is a multiple of three). -/
def regroup : List Channel → Grid
  | a :: b :: c :: rest => (a, b, c) :: regroup rest
  | _ => []

/-- `pub const DELIMITER: &str = "#####";` -/
def DELIMITER : List Char := ['#', '#', '#', '#', '#']

/-- The w-bit binary representation of `n`, most significant bit first:
the value of `format!("{:0>8}", format!("{:b}", number))` at width 8
(`true` stands for the character `'1'`). -/
def natToBits : Nat → Nat → List Bool
  | 0, _ => []
  | w + 1, n => natToBits w (n / 2) ++ [n % 2 == 1]

/-- `to_binary(number: u8) -> String`, as a list of bits. -/
def to_binary (n : Nat) : List Bool := natToBits 8 n

/-- `u8::from_str_radix(&s, 2)` / `u32::from_str_radix(&s, 2)`: the value of a
binary digit string, most significant digit first. -/
def fromBits (l : List Bool) : Nat :=
  l.foldl (fun a b => 2 * a + b.toNat) 0

/-- Build a channel value from (at most eight) bits; the `% 256` mirrors the
`u8` target type of `u8::from_str_radix(&new_color, 2).unwrap()` (for the
8-bit strings the source builds, `fromBits` is already below 256). -/
def mkChannel (l : List Bool) : Channel :=
  ⟨fromBits l % 256, Nat.mod_lt _ (by norm_num)⟩

/-- The `as usize` cast of an `i8`-ranged integer (64-bit wrap of a negative). -/
def toUsize (x : Int) : Nat := (x % (2 ^ 64)).toNat

/-- Two's-complement wrap of an integer into the `i8` range, as performed by
release-mode `i8` subtraction overflow. -/
def wrap8 (x : Int) : Int := (x + 128) % 256 - 128

/-- UTF-8 encoding of one Unicode scalar value, as byte values. -/
def utf8EncodeChar (c : Char) : List Nat :=
  let n := c.toNat
  if n < 0x80 then [n]
  else if n < 0x800 then [0xC0 + n / 64, 0x80 + n % 64]
  else if n < 0x10000 then [0xE0 + n / 4096, 0x80 + n / 64 % 64, 0x80 + n % 64]
  else [0xF0 + n / 262144, 0x80 + n / 4096 % 64, 0x80 + n / 64 % 64, 0x80 + n % 64]

/-- `String::into_bytes`: the UTF-8 bytes of a text. -/
def utf8Bytes (s : List Char) : List Nat := s.flatMap utf8EncodeChar

/-- `text_to_bits`: append `to_binary(byte)` for every byte of the UTF-8
encoding of the text, in order. -/
def text_to_bits (text : List Char) : List Bool :=
  (utf8Bytes text).flatMap to_binary

/-- The exact ceiling of the rational number `a / b`, computed on integers
(`ceilDiv a b = ⌈(a : ℚ) / (b : ℚ)⌉`, proved below; Lean's `Int` division
rounds toward negative infinity). -/
def ceilDiv (a : Nat) (b : Int) : Int :=
  if 0 ≤ b then -(-(a : Int) / b) else -((a : Int) / (-b))

/-- Fuelled base-2 integer logarithm (`⌊log2 n⌋` for `1 ≤ n`, 0 at 0 and 1);
the fuel only makes the recursion structural and is ample for every value
these definitions feed it (all below `2 ^ 128`). -/
def log2Aux : Nat → Nat → Nat
  | 0, _ => 0
  | f + 1, n => if n ≤ 1 then 0 else log2Aux f (n / 2) + 1

/-- Rust's `usize as f64` conversion for values below `2 ^ 64`: round to the
nearest representable IEEE-754 double (53-bit significand), ties to even.
Such values are far inside the normal range, so the result is the integer
`m * 2 ^ e` with `m < 2 ^ 53`.  This models the `secret.chars().count() as
f64` cast in `is_encodable`. -/
def f64ofNat (n : Nat) : Nat :=
  if n < 2 ^ 53 then n
  else
    let e := log2Aux 64 n - 52
    let m := n / 2 ^ e
    let r := n % 2 ^ e
    let half := 2 ^ (e - 1)
    if half < r ∨ (r = half ∧ m % 2 = 1) then (m + 1) * 2 ^ e else m * 2 ^ e

/-- IEEE-754 double division of nonzero magnitudes: round the exact quotient
`N / D` (with `N, D ≥ 1`) to the nearest double, ties to even.  Returns the
result as a pair `(mr, shift)` whose value is `mr * 2 ^ shift`: `e` is
`⌊log2 (N / D)⌋`, the quotient is scaled into `[2 ^ 52, 2 ^ 53)` (one unit in
the last place is `2 ^ shift` with `shift = e - 52`), and the scaled quotient
`A / Bd` is rounded to the nearest integer, ties to even. -/
def roundQuotient (N D : Nat) : Nat × Int :=
  let e0 : Int := (log2Aux 128 N : Int) - (log2Aux 128 D : Int)
  let e : Int :=
    if (if 0 ≤ e0 then 2 ^ e0.toNat * D ≤ N else D ≤ 2 ^ (-e0).toNat * N) then e0 else e0 - 1
  let shift : Int := e - 52
  let A := if 0 ≤ shift then N else N * 2 ^ (-shift).toNat
  let Bd := if 0 ≤ shift then D * 2 ^ shift.toNat else D
  let m := A / Bd
  let r := A % Bd
  let mr := if Bd < 2 * r ∨ (2 * r = Bd ∧ m % 2 = 1) then m + 1 else m
  (mr, shift)

/-- The source's chunk count
`((count as f64 / bits as f64).ceil()) as i64`, modelled step by step:
the `usize as f64` cast (`f64ofNat`), the IEEE-754 division of the cast count
by the exactly-representable `bits as f64` (`roundQuotient` on the
magnitudes, sign handled outside), the exact `.ceil()` of the rounded
quotient, and the saturating `as i64` cast (division by zero gives NaN,
cast to 0, when the count is zero, and +infinity, saturating to `i64::MAX`,
otherwise). -/
def f64chunks (count : Nat) (bits : Int) : Int :=
  let N := f64ofNat count
  if bits = 0 then
    if N = 0 then 0 else 2 ^ 63 - 1
  else if N = 0 then 0
  else
    let D := bits.natAbs
    let (mr, shift) := roundQuotient N D
    let mag : Int :=
      if 0 ≤ bits then
        ((if 0 ≤ shift then mr * 2 ^ shift.toNat
          else (mr + 2 ^ (-shift).toNat - 1) / 2 ^ (-shift).toNat : Nat) : Int)
      else
        -((if 0 ≤ shift then mr * 2 ^ shift.toNat else mr / 2 ^ (-shift).toNat : Nat) : Int)
    if mag > 2 ^ 63 - 1 then 2 ^ 63 - 1 else if mag < -(2 ^ 63) then -(2 ^ 63) else mag

/-- Rust's wrapping `usize as i64` cast. -/
def asI64 (n : Nat) : Int :=
  let w : Nat := n % 2 ^ 64
  if w < 2 ^ 63 then (w : Int) else (w : Int) - 2 ^ 64

/-- `is_encodable(image, secret_bits, bits)`.

Faithful model of the source:
`let chunks = ((secret.chars().count() as f64 / bits as f64).ceil()) as i64;`
is `f64chunks` (the `usize as f64` cast, the IEEE-754 double division, the
exact ceil and the saturating `as i64` cast, each rounding to nearest with
ties to even), and `let n_bytes = (image.pixels().len() * 3) as i64;` is the
wrapping cast `asI64`.  The `f64` path agrees with exact integer ceiling
division (`ceilDiv`) for counts below `2 ^ 53` — in particular on every
concrete evaluation in this file — and diverges above it (claims C5, C6). -/
def is_encodable (g : Grid) (secretBits : List Bool) (bits : Int) : Bool :=
  let chunks : Int := f64chunks secretBits.length bits
  let n_bytes : Int := asI64 (g.length * 3)
  if chunks > n_bytes then false else true

/-- Failure modes of `encode_image`, one per `panic!` source location. -/
inductive EncodeError
  /-- `panic!("Bits to encode must be higher than 0.")` -/
  | invalidParameter
  /-- `panic!("The Secret is too large to be encoded.")` -/
  | payloadTooLarge
  /-- the panic raised by `to_binary(*color)[..(8 - n_bits)]` when
  `n_bits > 8` (usize subtraction underflow / string slice out of range) -/
  | slicePanic
  deriving DecidableEq, Repr

/-- Failure modes of `decode_image`, one per `panic!` source location. -/
inductive DecodeError
  /-- `panic!("Bits to decode must be higher than 0.")` -/
  | invalidParameter
  /-- `panic!("Use the same amount of encoding bits for decoding the Image Secret.")` -/
  | bitWidthMismatch
  /-- the panic raised by `to_binary(*color)[n_bits..]` when `n_bits > 8` -/
  | slicePanic
  deriving DecidableEq, Repr

/-- The encoding loop of `encode_image` over the flat channel walk.
Per channel: stop if the bit stream is empty; otherwise take
`n_bits = min(bits as usize, secret_bits.len())` bits off the front of the
stream and replace the channel by its high `8 - n_bits` bits followed by that
chunk.  When `n_bits > 8` the source's `8 - n_bits` usize subtraction
underflows and the slice panics. -/
def encodeChannels (bits : Int) : List Channel → List Bool → Except EncodeError (List Channel)
  | [], _ => .ok []
  | c :: rest, s =>
    if s.isEmpty then .ok (c :: rest)
    else
      let n := min (toUsize bits) s.length
      if 8 < n then .error .slicePanic
      else do
        let out ← encodeChannels bits rest (s.drop n)
        pure (mkChannel ((to_binary c.val).take (8 - n) ++ s.take n) :: out)

/-- `encode_image(image, secret, bits)`. -/
def encode_image (g : Grid) (secret : List Char) (bits : Int) : Except EncodeError Grid :=
  if bits = 0 then .error .invalidParameter
  else
    let secret_bits := text_to_bits (secret ++ DELIMITER)
    if !is_encodable g secret_bits bits then .error .payloadTooLarge
    else (encodeChannels bits (channelsOf g) secret_bits).map regroup

/-- The number of high-order bits of the current channel the decoder skips
(`n_bits` in the source): normally `(8 - bits) as usize`; corrected to the
pending buffer's length when the accumulated text ends with the delimiter
minus its last character and `bits + pending length >= 8`. -/
def stepSkip (bits : Int) (secret : List Char) (pending : List Bool) : Nat :=
  if DELIMITER.dropLast.isSuffixOf secret ∧ 8 ≤ toUsize bits + pending.length then
    pending.length
  else
    toUsize (wrap8 (8 - bits))

/-- The decoding loop of `decode_image` over the flat channel walk.
State: `secret` (accumulated text) and `pending` (bits not yet forming a
byte).  Per channel: stop if `secret` ends with the delimiter; otherwise skip
`stepSkip` high bits of the channel, append the remaining low bits to
`pending`, and if `pending` reaches 8 bits pop the first 8 as one character.
A skip count above 8 models the source's out-of-range slice panic. -/
def decodeChannels (bits : Int) : List Channel → List Char → List Bool → Except DecodeError (List Char)
  | [], secret, _ => .ok secret
  | c :: rest, secret, pending =>
    if DELIMITER.isSuffixOf secret then .ok secret
    else
      let n := stepSkip bits secret pending
      if 8 < n then .error .slicePanic
      else
        let pending' := pending ++ (to_binary c.val).drop n
        if 8 ≤ pending'.length then
          decodeChannels bits rest
            (secret ++ [Char.ofNat (fromBits (pending'.take 8))]) (pending'.drop 8)
        else
          decodeChannels bits rest secret pending'

/-- Pop every complete byte off the front of a pending-bit buffer: the
"while the buffer holds at least 8 bits" loop of the specification's decode
step, returning the decoded characters in order and the leftover bits. -/
def extractBytes (p : List Bool) : List Char × List Bool :=
  if h : 8 ≤ p.length then
    let next := extractBytes (p.drop 8)
    (Char.ofNat (fromBits (p.take 8)) :: next.1, next.2)
  else ([], p)
termination_by p.length
decreasing_by simp only [List.length_drop]; omega

/-- The decode walk as the specification words it: identical to
`decodeChannels` except that after appending the channel's bits it pops
bytes with a repeat-while loop (`extractBytes`) instead of the source's
single `if`-guarded extraction. -/
def decodeChannelsW (bits : Int) : List Channel → List Char → List Bool → Except DecodeError (List Char)
  | [], secret, _ => .ok secret
  | c :: rest, secret, pending =>
    if DELIMITER.isSuffixOf secret then .ok secret
    else
      let n := stepSkip bits secret pending
      if 8 < n then .error .slicePanic
      else
        let pending' := pending ++ (to_binary c.val).drop n
        decodeChannelsW bits rest (secret ++ (extractBytes pending').1)
          (extractBytes pending').2

/-- Fuelled scanner for `replaceDelim`; the fuel (an upper bound on the list
length, structurally decreasing) only makes the recursion syntactically
well-founded and never runs out when started at the list's length. -/
def replaceDelimAux : Nat → List Char → List Char
  | 0, s => s
  | _ + 1, [] => []
  | fuel + 1, c :: rest =>
    if DELIMITER.isPrefixOf (c :: rest) then replaceDelimAux fuel (rest.drop 4)
    else c :: replaceDelimAux fuel rest

/-- `secret.replace(DELIMITER, "")`: remove every (leftmost, non-overlapping)
occurrence of the five-character delimiter. -/
def replaceDelim (s : List Char) : List Char := replaceDelimAux s.length s

/-- `decode_image(image, bits)`. -/
def decode_image (g : Grid) (bits : Int) : Except DecodeError (List Char) :=
  if bits = 0 then .error .invalidParameter
  else
    match decodeChannels bits (channelsOf g) [] [] with
    | .error e => .error e
    | .ok secret =>
      if DELIMITER.isSuffixOf secret then .ok (replaceDelim secret)
      else .error .bitWidthMismatch

/-- `true` iff the decode walk finishes with the accumulated text ending in
the full delimiter (the loop-exit condition `decode_image` tests). -/
def loopEndsWithDelim (g : Grid) (bits : Int) : Bool :=
  match decodeChannels bits (channelsOf g) [] [] with
  | .ok secret => DELIMITER.isSuffixOf secret
  | .error _ => true

/-- The 2×3 reference grid of the repository's tests (`mock_image`). -/
def mockGrid : Grid :=
  [(225, 12, 99), (155, 2, 50), (99, 51, 15), (15, 55, 22), (155, 61, 87), (63, 30, 17)]

/-- The reference grid encoded with payload `"hi"` at `bits = 6`
(`encoded_image` in the repository's tests). -/
def encodedGrid : Grid :=
  [(218, 6, 100), (163, 8, 50), (76, 35, 8), (15, 55, 22), (155, 61, 87), (63, 30, 17)]

/-! ## Decidability of result equality -/

instance {ε α : Type} [DecidableEq ε] [DecidableEq α] : DecidableEq (Except ε α) := fun
  | .ok a, .ok b =>
    if h : a = b then .isTrue (by rw [h])
    else .isFalse (by intro hh; cases hh; exact h rfl)
  | .ok _, .error _ => .isFalse (by intro hh; cases hh)
  | .error _, .ok _ => .isFalse (by intro hh; cases hh)
  | .error e, .error f =>
    if h : e = f then .isTrue (by rw [h])
    else .isFalse (by intro hh; cases hh; exact h rfl)

/-! ## Bit-codec arithmetic -/

theorem natToBits_length (w n : Nat) : (natToBits w n).length = w := by
  induction w generalizing n with
  | zero => rfl
  | succ w ih => simp [natToBits, ih]

theorem to_binary_length (n : Nat) : (to_binary n).length = 8 :=
  natToBits_length 8 n

theorem fromBits_foldl (l : List Bool) (a : Nat) :
    l.foldl (fun a b => 2 * a + b.toNat) a = a * 2 ^ l.length + fromBits l := by
  induction l generalizing a with
  | nil => simp [fromBits]
  | cons b l ih =>
    show (l.foldl _ (2 * a + b.toNat)) = _
    rw [ih (2 * a + b.toNat)]
    have hb : fromBits (b :: l) = b.toNat * 2 ^ l.length + fromBits l := by
      show (l.foldl _ (2 * 0 + b.toNat)) = _
      rw [ih (2 * 0 + b.toNat)]; ring
    rw [hb]
    simp [List.length_cons, pow_succ]; ring

theorem fromBits_cons (b : Bool) (l : List Bool) :
    fromBits (b :: l) = b.toNat * 2 ^ l.length + fromBits l := by
  show (l.foldl _ (2 * 0 + b.toNat)) = _
  rw [fromBits_foldl]; ring

theorem fromBits_append (l₁ l₂ : List Bool) :
    fromBits (l₁ ++ l₂) = fromBits l₁ * 2 ^ l₂.length + fromBits l₂ := by
  show ((l₁ ++ l₂).foldl _ 0) = _
  rw [List.foldl_append, fromBits_foldl]
  rfl

theorem fromBits_lt (l : List Bool) : fromBits l < 2 ^ l.length := by
  induction l with
  | nil => simp [fromBits]
  | cons b l ih =>
    rw [fromBits_cons]
    have : b.toNat ≤ 1 := Bool.toNat_le b
    calc b.toNat * 2 ^ l.length + fromBits l
        < b.toNat * 2 ^ l.length + 2 ^ l.length := by omega
      _ ≤ 1 * 2 ^ l.length + 2 ^ l.length := by
          have := Nat.pow_pos (n := l.length) (by norm_num : 0 < 2)
          nlinarith
      _ ≤ 2 ^ (b :: l).length := by simp [List.length_cons, pow_succ]; omega

theorem mod_two_mul (n k : Nat) (hk : 0 < k) :
    n % (2 * k) = 2 * (n / 2 % k) + n % 2 := by
  have h1 : n = 2 * (n / 2 % k) + n % 2 + (2 * k) * (n / 2 / k) := by
    have e1 : n = 2 * (n / 2) + n % 2 := (Nat.div_add_mod n 2).symm ▸ by omega
    have e2 : n / 2 = k * (n / 2 / k) + n / 2 % k := (Nat.div_add_mod (n / 2) k).symm ▸ by omega
    calc n = 2 * (n / 2) + n % 2 := e1
      _ = 2 * (k * (n / 2 / k) + n / 2 % k) + n % 2 := by rw [← e2]
      _ = 2 * (n / 2 % k) + n % 2 + 2 * k * (n / 2 / k) := by ring
  have h2 : 2 * (n / 2 % k) + n % 2 < 2 * k := by
    have := Nat.mod_lt (n / 2) hk
    have := Nat.mod_lt n (show 0 < 2 by norm_num)
    omega
  calc n % (2 * k) = (2 * (n / 2 % k) + n % 2 + 2 * k * (n / 2 / k)) % (2 * k) := by rw [← h1]
    _ = (2 * (n / 2 % k) + n % 2) % (2 * k) := by rw [Nat.add_mul_mod_self_left]
    _ = 2 * (n / 2 % k) + n % 2 := Nat.mod_eq_of_lt h2

theorem fromBits_natToBits (w n : Nat) : fromBits (natToBits w n) = n % 2 ^ w := by
  induction w generalizing n with
  | zero => simp [natToBits, fromBits, Nat.mod_one]
  | succ w ih =>
    show fromBits (natToBits w (n / 2) ++ [n % 2 == 1]) = _
    rw [fromBits_append, ih]
    have hpar : fromBits [n % 2 == 1] = n % 2 := by
      have : n % 2 = 0 ∨ n % 2 = 1 := Nat.mod_two_eq_zero_or_one n
      rcases this with h | h <;> simp [fromBits, h]
    rw [hpar]
    have : (2 : Nat) ^ (w + 1) = 2 * 2 ^ w := by ring
    rw [this, mod_two_mul n (2 ^ w) (Nat.pow_pos (by norm_num))]
    simp [List.length_singleton, pow_one]; ring

theorem natToBits_fromBits (l : List Bool) : natToBits l.length (fromBits l) = l := by
  induction l using List.reverseRecOn with
  | nil => rfl
  | append_singleton l b ih =>
    rw [List.length_append, List.length_singleton]
    show natToBits (l.length + 1) (fromBits (l ++ [b])) = l ++ [b]
    have hfb : fromBits (l ++ [b]) = fromBits l * 2 + b.toNat := by
      rw [fromBits_append]; simp [fromBits]
    have hbt : b.toNat < 2 := Bool.toNat_lt b
    have hdiv : fromBits (l ++ [b]) / 2 = fromBits l := by omega
    have hmod : fromBits (l ++ [b]) % 2 = b.toNat := by omega
    show natToBits l.length (fromBits (l ++ [b]) / 2) ++ [fromBits (l ++ [b]) % 2 == 1] = l ++ [b]
    rw [hdiv, hmod, ih]
    cases b <;> rfl

theorem natToBits_mod (w n : Nat) : natToBits w (n % 2 ^ w) = natToBits w n := by
  have h1 := natToBits_fromBits (natToBits w n)
  rw [natToBits_length, fromBits_natToBits] at h1
  exact h1

theorem natToBits_split (a b n : Nat) :
    natToBits (a + b) n = natToBits a (n / 2 ^ b) ++ natToBits b n := by
  induction b generalizing n with
  | zero => simp [natToBits]
  | succ b ih =>
    show natToBits (a + b + 1) n = _
    show natToBits (a + b) (n / 2) ++ [n % 2 == 1] = _
    rw [ih (n / 2), Nat.div_div_eq_div_mul, List.append_assoc]
    have h2 : 2 * (2 : Nat) ^ b = 2 ^ (b + 1) := by ring
    rw [h2]
    rfl

/-! ## Channel-value lemmas -/

theorem mkChannel_val (l : List Bool) (h : l.length ≤ 8) : (mkChannel l).val = fromBits l := by
  have h1 := fromBits_lt l
  have h2 : fromBits l < 256 := by
    have : (2 : Nat) ^ l.length ≤ 2 ^ 8 := Nat.pow_le_pow_right (by norm_num) h
    omega
  simp [mkChannel, Nat.mod_eq_of_lt h2]

theorem to_binary_mkChannel (l : List Bool) (h : l.length = 8) :
    to_binary (mkChannel l).val = l := by
  rw [mkChannel_val l (by omega), to_binary, ← h]
  exact natToBits_fromBits l

theorem mkChannel_toBinary (c : Channel) : mkChannel (to_binary c.val) = c := by
  apply Fin.ext
  show fromBits (to_binary c.val) % 256 = c.val
  rw [to_binary, fromBits_natToBits]
  have : c.val < 256 := c.isLt
  simp [Nat.mod_eq_of_lt this]

theorem to_binary_split (n m : Nat) (hm : m ≤ 8) :
    to_binary n = natToBits (8 - m) (n / 2 ^ m) ++ natToBits m n := by
  have h8 : natToBits 8 n = natToBits ((8 - m) + m) n := by congr 1; omega
  rw [to_binary, h8, natToBits_split (8 - m) m n]

theorem to_binary_take (n m : Nat) (hm : m ≤ 8) :
    (to_binary n).take (8 - m) = natToBits (8 - m) (n / 2 ^ m) := by
  rw [to_binary_split n m hm]
  exact List.take_left' (natToBits_length _ _)

theorem fromBits_to_binary_take (n m : Nat) (hm : m ≤ 8) (hn : n < 256) :
    fromBits ((to_binary n).take (8 - m)) = n / 2 ^ m := by
  rw [to_binary_take n m hm, fromBits_natToBits]
  apply Nat.mod_eq_of_lt
  rw [Nat.div_lt_iff_lt_mul (Nat.pow_pos (by norm_num))]
  calc n < 256 := hn
    _ = 2 ^ 8 := by norm_num
    _ = 2 ^ (8 - m) * 2 ^ m := by rw [← pow_add]; congr 1; omega

theorem to_binary_drop (n m : Nat) (hm : m ≤ 8) :
    (to_binary n).drop (8 - m) = natToBits m n := by
  rw [to_binary_split n m hm]
  exact List.drop_left' (natToBits_length _ _)

/-! ## Cast lemmas for the i8/usize arithmetic -/

theorem toUsize_small (b : Int) (h0 : 0 ≤ b) (h8 : b ≤ 8) : toUsize b = b.toNat := by
  unfold toUsize
  rw [Int.emod_eq_of_lt h0 (by omega)]

theorem skip_cast (b : Int) (h1 : 1 ≤ b) (h8 : b ≤ 8) :
    toUsize (wrap8 (8 - b)) = 8 - b.toNat := by
  unfold wrap8 toUsize
  rw [Int.emod_eq_of_lt (by omega) (by omega), Int.emod_eq_of_lt (by omega) (by omega)]
  omega

/-! ## The successful encoding walk as a pure recursion -/

/-- The channel-rewriting walk of `encode_image` in the in-range case
(`1 <= bits <= 8`), where no slice can panic: per channel take
`chunk = secret_bits.take bits` off the stream, write it into the channel's
low `chunk.length` bits, and stop as soon as the stream is empty. -/
def encodeChannelsOk (b : Nat) : List Channel → List Bool → List Channel
  | [], _ => []
  | c :: rest, s =>
    if s.isEmpty then c :: rest
    else
      mkChannel ((to_binary c.val).take (8 - (s.take b).length) ++ s.take b) ::
        encodeChannelsOk b rest (s.drop b)

theorem encodeChannelsOk_nil_stream (b : Nat) (cs : List Channel) :
    encodeChannelsOk b cs [] = cs := by
  cases cs <;> simp [encodeChannelsOk]

theorem encodeChannels_eq_ok (b : Int) (h1 : 1 ≤ b) (h8 : b ≤ 8)
    (cs : List Channel) (s : List Bool) :
    encodeChannels b cs s = .ok (encodeChannelsOk b.toNat cs s) := by
  induction cs generalizing s with
  | nil => rfl
  | cons c rest ih =>
    by_cases hs : s.isEmpty
    · simp [encodeChannels, encodeChannelsOk, hs]
    · have hbu : toUsize b = b.toNat := toUsize_small b (by omega) h8
      have hb8 : b.toNat ≤ 8 := by omega
      have hn : min (toUsize b) s.length ≤ 8 := by
        rw [hbu]; exact le_trans (min_le_left _ _) hb8
      have htk : s.take (min (toUsize b) s.length) = s.take b.toNat := by
        rw [hbu]
        rcases le_or_lt b.toNat s.length with h | h
        · rw [min_eq_left h]
        · rw [min_eq_right (le_of_lt h), List.take_length, List.take_of_length_le (le_of_lt h)]
      have hdr : s.drop (min (toUsize b) s.length) = s.drop b.toNat := by
        rw [hbu]
        rcases le_or_lt b.toNat s.length with h | h
        · rw [min_eq_left h]
        · rw [min_eq_right (le_of_lt h), List.drop_length,
            List.drop_eq_nil_of_le (le_of_lt h)]
      have hmin : min (toUsize b) s.length = (s.take b.toNat).length := by
        rw [hbu, List.length_take, Nat.min_comm]
      simp only [encodeChannels, encodeChannelsOk, hs, if_false, Bool.false_eq_true,
        not_false_iff, if_neg (Nat.not_lt.mpr hn)]
      rw [hdr, htk, hmin, ih (s.drop b.toNat)]
      rfl

theorem encodeChannelsOk_length (b : Nat) (cs : List Channel) (s : List Bool) :
    (encodeChannelsOk b cs s).length = cs.length := by
  induction cs generalizing s with
  | nil => rfl
  | cons c rest ih =>
    by_cases hs : s.isEmpty
    · simp [encodeChannelsOk, hs]
    · simp [encodeChannelsOk, hs, ih]

theorem mkChannel_take8_nil (c : Channel) :
    mkChannel ((to_binary c.val).take (8 - ([] : List Bool).length) ++ []) = c := by
  rw [List.append_nil, List.length_nil, Nat.sub_zero,
    List.take_of_length_le (le_of_eq (to_binary_length c.val))]
  exact mkChannel_toBinary c

theorem encodeChannelsOk_getElem (b : Nat) (cs : List Channel) (s : List Bool)
    (i : Nat) (c : Channel) (hc : cs[i]? = some c) :
    (encodeChannelsOk b cs s)[i]? =
      some (mkChannel ((to_binary c.val).take (8 - ((s.drop (b * i)).take b).length)
        ++ (s.drop (b * i)).take b)) := by
  induction cs generalizing s i with
  | nil => simp at hc
  | cons c0 rest ih =>
    by_cases hs : s.isEmpty
    · have hse : s = [] := List.isEmpty_iff.mp hs
      subst hse
      show (c0 :: rest)[i]? = _
      rw [hc]
      simp only [List.drop_nil, List.take_nil, mkChannel_take8_nil]
    · cases i with
      | zero =>
        rw [List.getElem?_cons_zero] at hc
        cases hc
        have hstep : encodeChannelsOk b (c :: rest) s =
            mkChannel ((to_binary c.val).take (8 - (s.take b).length) ++ s.take b) ::
              encodeChannelsOk b rest (s.drop b) := by
          simp [encodeChannelsOk, hs]
        rw [hstep, List.getElem?_cons_zero]
        simp [Nat.mul_zero, List.drop_zero]
      | succ i =>
        rw [List.getElem?_cons_succ] at hc
        have hstep : encodeChannelsOk b (c0 :: rest) s =
            mkChannel ((to_binary c0.val).take (8 - (s.take b).length) ++ s.take b) ::
              encodeChannelsOk b rest (s.drop b) := by
          simp [encodeChannelsOk, hs]
        rw [hstep, List.getElem?_cons_succ, ih (s.drop b) i hc]
        have hidx : (s.drop b).drop (b * i) = s.drop (b * (i + 1)) := by
          rw [List.drop_drop]
          congr 1
          ring
        rw [hidx]

/-! ## Grid flattening -/

theorem channelsOf_cons (p : Pixel) (g : Grid) :
    channelsOf (p :: g) = p.1 :: p.2.1 :: p.2.2 :: channelsOf g := by
  simp [channelsOf]

theorem channelsOf_length (g : Grid) : (channelsOf g).length = 3 * g.length := by
  induction g with
  | nil => rfl
  | cons p g ih => rw [channelsOf_cons]; simp [ih]; ring

theorem channelsOf_regroup : ∀ l : List Channel, 3 ∣ l.length → channelsOf (regroup l) = l
  | [], _ => rfl
  | [a], h => by simp at h
  | [a, b], h => by simp at h; omega
  | a :: b :: c :: rest, h => by
    have h3 : 3 ∣ rest.length := by
      simp only [List.length_cons] at h
      omega
    show channelsOf ((a, b, c) :: regroup rest) = _
    rw [channelsOf_cons, channelsOf_regroup rest h3]

/-- Claim C4 — encode channel-update semantics: for bits in `[1, 8]`, the
encoding walk succeeds and visits channels in the flat row-major walk order;
the channel at walk index `i` receives the chunk
`(stream.drop (bits * i)).take bits` (the next `min bits remaining` bits off
the front of the stream); its new value keeps the high `8 - chunkLen` bits of
the old value and replaces the low `chunkLen` bits by the chunk; once the
stream is exhausted the chunk is empty and the channel is unchanged. -/
theorem encode_channel_update_semantics (b : Int) (h1 : 1 ≤ b) (h8 : b ≤ 8)
    (cs : List Channel) (s : List Bool) :
    ∃ out, encodeChannels b cs s = .ok out ∧ out.length = cs.length ∧
      ∀ i c, cs[i]? = some c →
        (out[i]?).map Fin.val =
          some (2 ^ ((s.drop (b.toNat * i)).take b.toNat).length
                  * (c.val / 2 ^ ((s.drop (b.toNat * i)).take b.toNat).length)
                + fromBits ((s.drop (b.toNat * i)).take b.toNat)) := by
  refine ⟨encodeChannelsOk b.toNat cs s, encodeChannels_eq_ok b h1 h8 cs s,
    encodeChannelsOk_length _ _ _, ?_⟩
  intro i c hc
  rw [encodeChannelsOk_getElem b.toNat cs s i c hc]
  set ch := (s.drop (b.toNat * i)).take b.toNat with hch
  have hm : ch.length ≤ 8 := by
    rw [hch, List.length_take]
    have : b.toNat ≤ 8 := by omega
    omega
  have hlen8 : ((to_binary c.val).take (8 - ch.length) ++ ch).length = 8 := by
    rw [List.length_append, List.length_take, to_binary_length]
    omega
  show some (mkChannel ((to_binary c.val).take (8 - ch.length) ++ ch)).val = _
  congr 1
  rw [mkChannel_val _ (le_of_eq hlen8), fromBits_append]
  have htake : fromBits ((to_binary c.val).take (8 - ch.length)) = c.val / 2 ^ ch.length :=
    fromBits_to_binary_take c.val ch.length hm c.isLt
  rw [htake]
  ring

/-- Claim C4 witness: the characterization applied to the reference fixture
(the 2×3 test grid, payload `"hi"`, `bits = 6`). -/
theorem encode_channel_update_semantics_witness :
    ∃ out, encodeChannels 6 (channelsOf mockGrid) (text_to_bits (['h', 'i'] ++ DELIMITER)) =
        .ok out ∧
      out.length = (channelsOf mockGrid).length ∧
      ∀ i c, (channelsOf mockGrid)[i]? = some c →
        (out[i]?).map Fin.val =
          some (2 ^ (((text_to_bits (['h', 'i'] ++ DELIMITER)).drop ((6 : Int).toNat * i)).take
                  (6 : Int).toNat).length
                  * (c.val / 2 ^ (((text_to_bits (['h', 'i'] ++ DELIMITER)).drop
                      ((6 : Int).toNat * i)).take (6 : Int).toNat).length)
                + fromBits (((text_to_bits (['h', 'i'] ++ DELIMITER)).drop
                    ((6 : Int).toNat * i)).take (6 : Int).toNat)) :=
  encode_channel_update_semantics 6 (by norm_num) (by norm_num)
    (channelsOf mockGrid) (text_to_bits (['h', 'i'] ++ DELIMITER))

/-- Claim C7 — frame property of encode: after a successful encode, every
channel whose flat walk index `i` lies at or beyond the number of channels
needed for the serialized payload-plus-delimiter stream (`bits * i` at least
the stream length) is identical to the corresponding input channel. -/
theorem encode_frame_beyond_extent (b : Int) (h1 : 1 ≤ b) (h8 : b ≤ 8)
    (g : Grid) (t : List Char) (out : Grid)
    (henc : encode_image g t b = .ok out) (i : Nat)
    (hge : (text_to_bits (t ++ DELIMITER)).length ≤ b.toNat * i) :
    (channelsOf out)[i]? = (channelsOf g)[i]? := by
  rw [encode_image, if_neg (by omega : ¬ b = 0)] at henc
  set s := text_to_bits (t ++ DELIMITER) with hsdef
  by_cases hcap : is_encodable g s b
  · simp only [hcap, Bool.not_true, Bool.false_eq_true, if_false] at henc
    rw [encodeChannels_eq_ok b h1 h8] at henc
    simp only [Except.map] at henc
    injection henc with henc
    subst henc
    have hlen : (encodeChannelsOk b.toNat (channelsOf g) s).length = (channelsOf g).length :=
      encodeChannelsOk_length _ _ _
    have hdvd : 3 ∣ (encodeChannelsOk b.toNat (channelsOf g) s).length := by
      rw [hlen, channelsOf_length]
      exact Dvd.intro _ rfl
    rw [channelsOf_regroup _ hdvd]
    rcases Nat.lt_or_ge i (channelsOf g).length with hi | hi
    · have hc : (channelsOf g)[i]? = some ((channelsOf g).get ⟨i, hi⟩) :=
        List.getElem?_eq_getElem hi
      rw [encodeChannelsOk_getElem b.toNat (channelsOf g) s i _ hc]
      have hdrop : s.drop (b.toNat * i) = [] := List.drop_eq_nil_of_le hge
      rw [hdrop]
      simp only [List.take_nil, mkChannel_take8_nil]
      exact hc.symm
    · rw [List.getElem?_eq_none (le_trans (le_of_eq hlen) hi),
        List.getElem?_eq_none hi]
  · simp only [hcap, Bool.not_false, if_true] at henc
    cases henc

/-- Claim C7 witness: the fixture encode (`"hi"`, `bits = 6`) leaves walk
index 10 (the 10 chunks of the 56-bit stream occupy indexes 0–9) unchanged. -/
theorem encode_frame_beyond_extent_witness :
    (channelsOf encodedGrid)[10]? = (channelsOf mockGrid)[10]? :=
  encode_frame_beyond_extent 6 (by norm_num) (by norm_num) mockGrid ['h', 'i']
    encodedGrid (by decide) 10 (by decide)

/-- The exact integer ceiling division `ceilDiv` agrees with the
mathematical ceiling of the rational quotient. -/
theorem ceilDiv_eq_ceil (a : Nat) (b : Int) :
    ceilDiv a b = ⌈(a : ℚ) / (b : ℚ)⌉ := by
  rcases lt_trichotomy b 0 with hb | hb | hb
  · rw [ceilDiv, if_neg (not_le.mpr hb)]
    set d : Nat := (-b).toNat with hd
    have hbd : b = -(d : Int) := by omega
    have hcast : ((b : ℚ)) = -((d : Nat) : ℚ) := by
      rw [hbd]; push_cast; ring
    have hcastn : ((a : Nat) : ℚ) = (((a : Nat) : Int) : ℚ) := by push_cast; ring
    rw [hcast, div_neg, Int.ceil_neg, hcastn,
      Rat.floor_intCast_div_natCast ((a : Nat) : Int) d, hbd]
    norm_num
  · subst hb
    simp [ceilDiv]
  · rw [ceilDiv, if_pos (le_of_lt hb)]
    set d : Nat := b.toNat with hd
    have hbd : b = (d : Int) := by omega
    have hceil : ⌈((a : Nat) : ℚ) / (b : ℚ)⌉ = -⌊-(((a : Nat) : ℚ) / (b : ℚ))⌋ := rfl
    have hneg : -(((a : Nat) : ℚ) / (b : ℚ)) = ((-(a : Int) : Int) : ℚ) / ((d : Nat) : ℚ) := by
      rw [hbd]; push_cast; ring
    rw [hceil, hneg, Rat.floor_intCast_div_natCast (-(a : Int)) d, hbd]

/-- Claim C6 (code-bug evidence): the capacity check that guards encode is
computed in `f64`, so an oversized payload can slip through it.  At
`bits = 1` a stream of `2 ^ 56 + 8` bits (an ASCII payload of `2 ^ 53 - 4`
characters plus the 40-bit delimiter) needs `2 ^ 56 + 8` one-bit chunks, yet
the source's `count as f64` cast rounds the count down to `2 ^ 56`
(ties-to-even, the tie with an even mantissa), so a grid with only
`2 ^ 56 + 2` channel slots is accepted: encode then walks the whole grid
mutating channels and returns with six stream bits never embedded, without
the payload-too-large error the claim requires.  At realizable sizes the
check does fire before any channel is written: the repository's own fixture
(payload `"Heyo"`, `bits = 1`, 72 stream bits for 18 slots) fails with the
payload-too-large error and no grid is produced. -/
theorem f64_capacity_accepts_oversize :
    f64chunks (2 ^ 56 + 8) 1 = 2 ^ 56 ∧
    ((2 ^ 56 : Int) ≤ 2 ^ 56 + 2) ∧
    ceilDiv (2 ^ 56 + 8) 1 = 2 ^ 56 + 8 ∧
    ¬ ((2 ^ 56 + 8 : Int) ≤ 2 ^ 56 + 2) ∧
    encode_image mockGrid ['H', 'e', 'y', 'o'] 1 = .error .payloadTooLarge := by
  refine ⟨by decide, by norm_num, by decide, by norm_num, by decide⟩

/-- Claim C2 (code-bug evidence): for `bits` outside `[1, 8]` other than 0 the
source does not report the invalid parameter; it panics at a string slice
(`8 - n_bits` underflows for `bits = 9`; `bits as usize` is huge for
`bits = -1`).  Only `bits = 0` is validated. -/
theorem bits_out_of_range_panics :
    encode_image mockGrid ['h', 'i'] 9 = .error .slicePanic ∧
    decode_image mockGrid 9 = .error .slicePanic ∧
    encode_image mockGrid ['h', 'i'] (-1) = .error .slicePanic ∧
    decode_image mockGrid (-1) = .error .slicePanic ∧
    encode_image mockGrid ['h', 'i'] 0 = .error .invalidParameter ∧
    decode_image mockGrid 0 = .error .invalidParameter := by
  refine ⟨by decide, by decide, by decide, by decide, by decide, by decide⟩

/-- Claim C3 counterexample: at a correction step that the fixture decode
(`encoded_image`, `bits = 6`) actually reaches — accumulated text `"hi####"`,
six pending bits — the conditions of the boundary correction hold, yet the
number of low-order bits taken from the channel (`8 - stepSkip`, the length
of `to_binary(color)[n_bits..]`) is `2`, not the pending buffer's length `6`
as the claim states. -/
theorem decoder_takeBits_counterexample :
    DELIMITER.dropLast.isSuffixOf ['h', 'i', '#', '#', '#', '#'] = true ∧
    8 ≤ toUsize 6 + ([true, true, false, false, true, false] : List Bool).length ∧
    8 - stepSkip 6 ['h', 'i', '#', '#', '#', '#'] [true, true, false, false, true, false] = 2 ∧
    (2 : Nat) ≠ ([true, true, false, false, true, false] : List Bool).length := by
  refine ⟨by decide, by decide, by decide, by decide⟩

/-- Claim C3 (amended) — decoder boundary correction: whenever the
accumulated text ends with the delimiter minus its last character and
`bits + pending length >= 8`, the decoder sets the skip count to the pending
buffer's length, so the number of low-order bits taken is `8 - pending
length` — just enough additional bits to complete the final byte and never
more; in every other step it takes exactly `bits` bits. -/
theorem decoder_boundary_correction (b : Int) (h1 : 1 ≤ b) (h8 : b ≤ 8)
    (secret : List Char) (pending : List Bool) (hp : pending.length < 8) :
    (DELIMITER.dropLast.isSuffixOf secret ∧ 8 ≤ toUsize b + pending.length →
      stepSkip b secret pending = pending.length ∧
      pending.length + (8 - stepSkip b secret pending) = 8 ∧
      8 - stepSkip b secret pending = 8 - pending.length) ∧
    (¬ (DELIMITER.dropLast.isSuffixOf secret ∧ 8 ≤ toUsize b + pending.length) →
      8 - stepSkip b secret pending = b.toNat) := by
  have hu : toUsize b = b.toNat := toUsize_small b (by omega) h8
  constructor
  · intro hc
    rw [stepSkip, if_pos hc]
    exact ⟨rfl, by omega, rfl⟩
  · intro hc
    rw [stepSkip, if_neg hc, skip_cast b h1 h8]
    omega

/-- Claim C3 witness: the amended statement at the reachable fixture state
(`bits = 6`, text `"hi####"`, six pending bits). -/
theorem decoder_boundary_correction_witness :
    (DELIMITER.dropLast.isSuffixOf ['h', 'i', '#', '#', '#', '#'] ∧
      8 ≤ toUsize 6 + ([false, false, true, false, false, true] : List Bool).length →
      stepSkip 6 ['h', 'i', '#', '#', '#', '#'] [false, false, true, false, false, true] =
        ([false, false, true, false, false, true] : List Bool).length ∧
      ([false, false, true, false, false, true] : List Bool).length +
        (8 - stepSkip 6 ['h', 'i', '#', '#', '#', '#'] [false, false, true, false, false, true]) = 8 ∧
      8 - stepSkip 6 ['h', 'i', '#', '#', '#', '#'] [false, false, true, false, false, true] =
        8 - ([false, false, true, false, false, true] : List Bool).length) ∧
    (¬ (DELIMITER.dropLast.isSuffixOf ['h', 'i', '#', '#', '#', '#'] ∧
        8 ≤ toUsize 6 + ([false, false, true, false, false, true] : List Bool).length) →
      8 - stepSkip 6 ['h', 'i', '#', '#', '#', '#'] [false, false, true, false, false, true] =
        (6 : Int).toNat) :=
  decoder_boundary_correction 6 (by norm_num) (by norm_num)
    ['h', 'i', '#', '#', '#', '#'] [false, false, true, false, false, true] (by decide)

/-- Claim C8 — width-mismatch detection: for `bits` in `[1, 8]`, if the decode
walk over the whole grid finishes without the accumulated text ending in the
full delimiter, `decode_image` fails with the bit-width-mismatch error. -/
theorem decode_bit_width_mismatch (b : Int) (h1 : 1 ≤ b) (h8 : b ≤ 8) (g : Grid)
    (hend : loopEndsWithDelim g b = false) :
    decode_image g b = .error .bitWidthMismatch := by
  rw [decode_image, if_neg (by omega : ¬ b = 0)]
  cases hloop : decodeChannels b (channelsOf g) [] [] with
  | error e =>
    rw [loopEndsWithDelim, hloop] at hend
    cases hend
  | ok s =>
    rw [loopEndsWithDelim, hloop] at hend
    change DELIMITER.isSuffixOf s = false at hend
    have hns : ¬ (DELIMITER <:+ s) := by
      rw [← List.isSuffixOf_iff_suffix, hend]
      simp
    simp [hns]

/-- Claim C8 witness: decoding the reference encoded grid (payload `"hi"`,
encoded at `bits = 6`) with `bits = 7` fails with the width-mismatch error,
exactly as the repository's `error_decode_image_secret` test expects. -/
theorem decode_bit_width_mismatch_witness :
    decode_image encodedGrid 7 = .error .bitWidthMismatch :=
  decode_bit_width_mismatch 7 (by norm_num) (by norm_num) encodedGrid (by decide)

/-- Claim C10 — delimiter stripping: the final `secret.replace(DELIMITER, "")`
removes every delimiter occurrence (first conjunct, a two-occurrence
evaluation of the model of `replace`), and consequently a payload containing
`"#####"` does not round-trip: encoding `"a#####b"` at `bits = 8` into the
reference grid and decoding returns `"a"`, not the original payload (the
decoder stops at the first delimiter occurrence and strips it). -/
theorem decode_delimiter_stripping :
    replaceDelim ['a', 'b', '#', '#', '#', '#', '#', 'c', 'd', '#', '#', '#', '#', '#'] =
      ['a', 'b', 'c', 'd'] ∧
    DELIMITER <:+: ['a', '#', '#', '#', '#', '#', 'b'] ∧
    encode_image mockGrid ['a', '#', '#', '#', '#', '#', 'b'] 8 =
      .ok [(97, 35, 35), (35, 35, 35), (98, 35, 35), (35, 35, 35), (155, 61, 87), (63, 30, 17)] ∧
    decode_image [(97, 35, 35), (35, 35, 35), (98, 35, 35), (35, 35, 35), (155, 61, 87),
      (63, 30, 17)] 8 = .ok ['a'] ∧
    (['a'] : List Char) ≠ ['a', '#', '#', '#', '#', '#', 'b'] := by
  refine ⟨by decide, by decide, by decide, by decide, by decide⟩

theorem extractBytes_small (p : List Bool) (h : p.length < 16) :
    extractBytes p =
      if 8 ≤ p.length then ([Char.ofNat (fromBits (p.take 8))], p.drop 8) else ([], p) := by
  by_cases h8 : 8 ≤ p.length
  · have hrest : extractBytes (p.drop 8) = ([], p.drop 8) := by
      rw [extractBytes, dif_neg]
      simp only [List.length_drop]
      omega
    rw [extractBytes, dif_pos h8, if_pos h8, hrest]
  · rw [extractBytes, dif_neg h8, if_neg h8]

/-- Claim C9 — implicit pending-buffer invariant: for `bits` in `[1, 8]`,
whenever the decode walk starts a channel step with fewer than 8 pending
bits (as it does from the initial empty buffer), the source's single
`if`-guarded byte extraction per channel is equivalent to the
specification's repeat-while-at-least-8-bits loop: every state the walk
reaches again has fewer than 8 pending bits, so at most one byte can
complete per channel and the single extraction extracts every completed
byte. -/
theorem decode_single_extraction_invariant (b : Int) (h1 : 1 ≤ b) (h8 : b ≤ 8)
    (cs : List Channel) (secret : List Char) (pending : List Bool)
    (hp : pending.length < 8) :
    decodeChannels b cs secret pending = decodeChannelsW b cs secret pending := by
  induction cs generalizing secret pending with
  | nil => rfl
  | cons c rest ih =>
    by_cases hstop : DELIMITER.isSuffixOf secret
    · simp [decodeChannels, decodeChannelsW, hstop]
    · simp only [decodeChannels, decodeChannelsW, hstop, Bool.false_eq_true, if_false]
      by_cases hbig : 8 < stepSkip b secret pending
      · simp only [hbig, if_pos, if_true]
      · simp only [hbig, if_neg, if_false]
        have hlen : (pending ++ (to_binary c.val).drop (stepSkip b secret pending)).length < 16 := by
          rw [List.length_append, List.length_drop, to_binary_length]
          omega
        rw [extractBytes_small _ hlen]
        by_cases hge : 8 ≤ (pending ++ (to_binary c.val).drop (stepSkip b secret pending)).length
        · simp only [hge, if_pos, if_true]
          exact ih _ _ (by
            rw [List.length_drop]
            omega)
        · simp only [hge, if_neg, if_false]
          rw [List.append_nil]
          exact ih _ _ (by omega)

/-- Claim C9 witness: the equivalence applied to the reference encoded grid
at `bits = 6` from the initial state. -/
theorem decode_single_extraction_invariant_witness :
    decodeChannels 6 (channelsOf encodedGrid) [] [] =
      decodeChannelsW 6 (channelsOf encodedGrid) [] [] :=
  decode_single_extraction_invariant 6 (by norm_num) (by norm_num)
    (channelsOf encodedGrid) [] [] (by decide)

/-! ## Stream and text lemmas for the round-trip proof -/

theorem flatMap_to_binary_length (B : List Nat) :
    (B.flatMap to_binary).length = 8 * B.length := by
  induction B with
  | nil => rfl
  | cons x B ih =>
    simp only [List.flatMap_cons, List.length_append, to_binary_length, ih, List.length_cons]
    ring

theorem drop8_flatMap (B : List Nat) :
    (B.flatMap to_binary).drop 8 = B.tail.flatMap to_binary := by
  cases B with
  | nil => rfl
  | cons x B =>
    simp only [List.flatMap_cons, List.tail_cons]
    exact List.drop_left' (to_binary_length x)

theorem drop8k_flatMap (k : Nat) (B : List Nat) :
    (B.flatMap to_binary).drop (8 * k) = (B.drop k).flatMap to_binary := by
  induction k generalizing B with
  | zero => simp
  | succ k ih =>
    have h1 : 8 * (k + 1) = 8 * k + 8 := by ring
    rw [h1, ← List.drop_drop, ih, drop8_flatMap, List.tail_drop]

theorem stream_take8 (B : List Nat) (k : Nat) (hk : k < B.length) :
    ((B.flatMap to_binary).drop (8 * k)).take 8 = to_binary (B.get ⟨k, hk⟩) := by
  rw [drop8k_flatMap, List.drop_eq_getElem_cons hk]
  simp only [List.flatMap_cons, List.get_eq_getElem]
  exact List.take_left' (to_binary_length _)

theorem utf8_ascii (s : List Char) (h : ∀ c ∈ s, c.toNat < 128) :
    utf8Bytes s = s.map Char.toNat := by
  induction s with
  | nil => rfl
  | cons c s ih =>
    have hc : c.toNat < 128 := h c (by simp)
    have henc : utf8EncodeChar c = [c.toNat] := by
      simp only [utf8EncodeChar]
      rw [if_pos hc]
    simp only [utf8Bytes, List.flatMap_cons, List.map_cons, henc, List.singleton_append]
    congr 1
    exact ih fun x hx => h x (by simp [hx])

theorem ascii_append_delim (t : List Char) (h : ∀ c ∈ t, c.toNat < 128) :
    ∀ c ∈ t ++ DELIMITER, c.toNat < 128 := by
  intro c hc
  rcases List.mem_append.mp hc with hc | hc
  · exact h c hc
  · have : c = '#' := by
      simp only [DELIMITER, List.mem_cons, List.not_mem_nil, or_false] at hc
      rcases hc with h | h | h | h | h <;> exact h
    rw [this]
    decide

theorem decodeChannels_of_suffix (b : Int) (cs : List Channel) (secret : List Char)
    (p : List Bool) (h : DELIMITER.isSuffixOf secret = true) :
    decodeChannels b cs secret p = .ok secret := by
  cases cs <;> simp [decodeChannels, h]

theorem replaceDelimAux_nil (fuel : Nat) : replaceDelimAux fuel [] = [] := by
  cases fuel <;> rfl

/-! ## Delimiter-run analysis

For a payload `t` with no `"####"` substring and no trailing `'#'`, the text
`t ++ "#####"` shows a four-hash suffix at exactly one prefix length
(`t.length + 4`) and a five-hash suffix at none before the full length. -/

theorem DELIMITER_replicate : DELIMITER = List.replicate 5 '#' := rfl

theorem DELIMITER_dropLast_replicate : DELIMITER.dropLast = List.replicate 4 '#' := rfl

theorem take_append_delim_le (t : List Char) (k : Nat) (hk : k ≤ t.length) :
    (t ++ DELIMITER).take k = t.take k := by
  rw [List.take_append_eq_append_take]
  have h0 : k - t.length = 0 := by omega
  rw [h0]
  simp

theorem take_append_delim_gt (t : List Char) (k : Nat) (h1 : t.length ≤ k)
    (h2 : k ≤ t.length + 5) :
    (t ++ DELIMITER).take k = t ++ List.replicate (k - t.length) '#' := by
  rw [List.take_append_eq_append_take, List.take_of_length_le h1]
  congr 1
  rw [DELIMITER_replicate, List.take_replicate]
  congr 1
  omega

theorem hash_run_suffix (m j : Nat) (t : List Char) (hj : j < m)
    (h : List.replicate m '#' <:+ t ++ List.replicate j '#') :
    ['#'] <:+ t := by
  obtain ⟨u, hu⟩ := h
  have hlen : u.length + m = t.length + j := by
    have := congrArg List.length hu
    simpa using this
  have htu : t.length = u.length + (m - j) := by omega
  have htake := congrArg (List.take t.length) hu
  rw [List.take_left] at htake
  rw [List.take_append_eq_append_take, List.take_of_length_le (by omega : u.length ≤ t.length),
    htu, Nat.add_sub_cancel_left, List.take_replicate,
    min_eq_left (by omega : m - j ≤ m)] at htake
  have hsplit : List.replicate (m - j) '#' = List.replicate (m - j - 1) '#' ++ ['#'] := by
    have : m - j = (m - j - 1) + 1 := by omega
    rw [this, List.replicate_add]
    rfl
  refine ⟨u ++ List.replicate (m - j - 1) '#', ?_⟩
  rw [List.append_assoc, ← hsplit, htake]

theorem hash_suffix_take_lb (t : List Char) (h2 : ¬ (List.replicate 4 '#' <:+: t))
    (h3 : ¬ (['#'] <:+ t)) (m k : Nat) (hm4 : 4 ≤ m) (hm5 : m ≤ 5)
    (hk : k < t.length + 5)
    (hsuf : List.replicate m '#' <:+ (t ++ DELIMITER).take k) :
    t.length + m ≤ k := by
  rcases le_or_lt k t.length with hkt | hkt
  · exfalso
    rw [take_append_delim_le t k hkt] at hsuf
    have h4m : List.replicate 4 '#' <:+ List.replicate m '#' := by
      refine ⟨List.replicate (m - 4) '#', ?_⟩
      rw [← List.replicate_add]
      congr 1
      omega
    have : List.replicate 4 '#' <:+: t :=
      ((h4m.trans hsuf).isInfix).trans (List.take_prefix k t).isInfix
    exact h2 this
  · have hj5 : k - t.length ≤ 4 := by omega
    rw [take_append_delim_gt t k (by omega) (by omega)] at hsuf
    rcases le_or_lt m (k - t.length) with hjm | hjm
    · omega
    · exfalso
      exact h3 (hash_run_suffix m (k - t.length) t hjm hsuf)

theorem no_delim_suffix_take (t : List Char) (h2 : ¬ (List.replicate 4 '#' <:+: t))
    (h3 : ¬ (['#'] <:+ t)) (k : Nat) (hk : k < t.length + 5) :
    ¬ (DELIMITER <:+ (t ++ DELIMITER).take k) := by
  intro hsuf
  rw [DELIMITER_replicate] at hsuf
  have := hash_suffix_take_lb t h2 h3 5 k (by norm_num) (by norm_num) hk hsuf
  omega

theorem hash4_suffix_take_iff (t : List Char) (h2 : ¬ (List.replicate 4 '#' <:+: t))
    (h3 : ¬ (['#'] <:+ t)) (k : Nat) (hk : k < t.length + 5) :
    (List.replicate 4 '#' <:+ (t ++ DELIMITER).take k) ↔ k = t.length + 4 := by
  constructor
  · intro hsuf
    have := hash_suffix_take_lb t h2 h3 4 k (by norm_num) (by norm_num) hk hsuf
    omega
  · intro hkeq
    subst hkeq
    rw [take_append_delim_gt t _ (by omega) (by omega), Nat.add_sub_cancel_left]
    exact List.suffix_append t _

theorem delim_prefix_head (t : List Char) (h2 : ¬ (List.replicate 4 '#' <:+: t))
    (h3 : ¬ (['#'] <:+ t)) (ht : t ≠ []) (h : DELIMITER <+: t ++ DELIMITER) : False := by
  obtain ⟨u, hu⟩ := h
  rcases le_or_lt 5 t.length with hlen | hlen
  · have htake := congrArg (List.take 5) hu
    rw [List.take_left' (by rw [DELIMITER_replicate]; rfl : DELIMITER.length = 5)] at htake
    rw [take_append_delim_le t 5 hlen] at htake
    apply h2
    have hpre : List.replicate 4 '#' <+: t.take 5 := by
      rw [← htake, DELIMITER_replicate]
      exact ⟨['#'], by decide⟩
    exact hpre.isInfix.trans (List.take_prefix 5 t).isInfix
  · have htake := congrArg (List.take t.length) hu
    rw [List.take_left] at htake
    rw [List.take_append_eq_append_take] at htake
    have h50 : t.length - DELIMITER.length = 0 := by
      rw [DELIMITER_replicate, List.length_replicate]
      omega
    rw [h50] at htake
    simp only [List.take_zero, List.append_nil] at htake
    rw [DELIMITER_replicate, List.take_replicate] at htake
    have ht' : t = List.replicate t.length '#' := by
      have hmin : t.length ⊓ 5 = t.length := by omega
      rw [hmin] at htake
      exact htake.symm
    apply h3
    rw [ht']
    have hl1 : 1 ≤ t.length := List.length_pos.mpr ht
    refine ⟨List.replicate (t.length - 1) '#', ?_⟩
    have h1 : (['#'] : List Char) = List.replicate 1 '#' := rfl
    rw [h1, ← List.replicate_add]
    congr 1
    omega

theorem replaceDelimAux_append_delim (t : List Char) (h2 : ¬ (List.replicate 4 '#' <:+: t))
    (h3 : ¬ (['#'] <:+ t)) :
    ∀ fuel, t.length + 5 ≤ fuel → replaceDelimAux fuel (t ++ DELIMITER) = t := by
  induction t with
  | nil =>
    intro fuel hf
    cases fuel with
    | zero => omega
    | succ f =>
      show replaceDelimAux (f + 1) ([] ++ DELIMITER) = []
      rw [List.nil_append]
      show replaceDelimAux (f + 1) ('#' :: ['#', '#', '#', '#']) = []
      rw [replaceDelimAux, if_pos (by decide)]
      exact replaceDelimAux_nil f
  | cons c t ih =>
    intro fuel hf
    cases fuel with
    | zero => simp only [List.length_cons] at hf; omega
    | succ f =>
      have h2' : ¬ (List.replicate 4 '#' <:+: t) := fun h =>
        h2 (h.trans (List.suffix_cons c t).isInfix)
      have h3' : ¬ (['#'] <:+ t) := fun h => h3 (h.trans (List.suffix_cons c t))
      show replaceDelimAux (f + 1) (c :: (t ++ DELIMITER)) = c :: t
      rw [replaceDelimAux]
      have hnp : ¬ (DELIMITER.isPrefixOf (c :: (t ++ DELIMITER)) = true) := by
        intro hcon
        have hpre : DELIMITER <+: (c :: t) ++ DELIMITER := by
          rw [List.cons_append]
          exact List.isPrefixOf_iff_prefix.mp hcon
        exact delim_prefix_head (c :: t) h2 h3 (by simp) hpre
      rw [if_neg hnp]
      congr 1
      refine ih h2' h3' f ?_
      simp only [List.length_cons] at hf
      omega

theorem replaceDelim_append_delim (t : List Char) (h2 : ¬ (List.replicate 4 '#' <:+: t))
    (h3 : ¬ (['#'] <:+ t)) : replaceDelim (t ++ DELIMITER) = t := by
  rw [replaceDelim]
  refine replaceDelimAux_append_delim t h2 h3 _ ?_
  rw [List.length_append, DELIMITER_replicate, List.length_replicate]

theorem stream_byte (B : List Nat) (k : Nat) (hk : k < B.length)
    (h256 : ∀ x ∈ B, x < 256) :
    fromBits (((B.flatMap to_binary).drop (8 * k)).take 8) = B.get ⟨k, hk⟩ := by
  rw [stream_take8 B k hk, to_binary, fromBits_natToBits]
  apply Nat.mod_eq_of_lt
  have h1 : B.get ⟨k, hk⟩ ∈ B := List.get_mem B k hk
  have h2 : B.get ⟨k, hk⟩ < 256 := h256 _ h1
  have h28 : (2 : Nat) ^ 8 = 256 := by norm_num
  omega

theorem char_at_map (T : List Char) (k : Nat) (hk : k < T.length)
    (hk2 : k < (T.map Char.toNat).length) :
    Char.ofNat ((T.map Char.toNat).get ⟨k, hk2⟩) = T.get ⟨k, hk⟩ := by
  have h : (T.map Char.toNat).get ⟨k, hk2⟩ = Char.toNat (T.get ⟨k, hk⟩) := by
    simp [List.get_eq_getElem, List.getElem_map]
  rw [h, Char.ofNat_toNat]

/-- Core of the round-trip proof: for `bits` in `[1, 8]` and a payload `t`
that is delimiter-collision free (no `"####"` substring, no trailing `'#'`),
the decode walk over channels carrying the encoded stream reconstructs
exactly `t ++ "#####"` and stops.  The induction is over the remaining
channels, with `k` produced characters, `p` pending bits and `S'` the
not-yet-embedded tail of the stream. -/
theorem decode_core (b : Int) (h1 : 1 ≤ b) (h8 : b ≤ 8)
    (t : List Char) (hascii : ∀ c ∈ t, c.toNat < 128)
    (h2 : ¬ (List.replicate 4 '#' <:+: t)) (h3 : ¬ (['#'] <:+ t)) :
    ∀ (cs : List Channel) (k : Nat) (p S' : List Bool),
      k ≤ t.length + 5 →
      p.length < 8 →
      p ++ S' = (((t ++ DELIMITER).map Char.toNat).flatMap to_binary).drop (8 * k) →
      S'.length ≤ b.toNat * cs.length →
      decodeChannels b (encodeChannelsOk b.toNat cs S') ((t ++ DELIMITER).take k) p =
        .ok (t ++ DELIMITER) := by
  have hTlen : (t ++ DELIMITER).length = t.length + 5 := by
    rw [List.length_append, DELIMITER_replicate, List.length_replicate]
  have hBlen : ((t ++ DELIMITER).map Char.toNat).length = t.length + 5 := by
    rw [List.length_map, hTlen]
  have hSlen : (((t ++ DELIMITER).map Char.toNat).flatMap to_binary).length =
      8 * (t.length + 5) := by
    rw [flatMap_to_binary_length, hBlen]
  have hB256 : ∀ x ∈ (t ++ DELIMITER).map Char.toNat, x < 256 := by
    intro x hx
    obtain ⟨c, hc, rfl⟩ := List.mem_map.mp hx
    have := ascii_append_delim t hascii c hc
    omega
  have hbu : toUsize b = b.toNat := toUsize_small b (by omega) h8
  have hTsuf : DELIMITER.isSuffixOf (t ++ DELIMITER) = true := by
    rw [List.isSuffixOf_iff_suffix]
    exact List.suffix_append t DELIMITER
  intro cs
  induction cs with
  | nil =>
    intro k p S' hk hp hps hcap
    simp only [List.length_nil, Nat.mul_zero, Nat.le_zero] at hcap
    have hS' : S' = [] := List.length_eq_zero.mp hcap
    subst hS'
    have hlen := congrArg List.length hps
    rw [List.length_append, List.length_nil, List.length_drop, hSlen] at hlen
    have hkeq : k = t.length + 5 := by omega
    have hpnil : p = [] := List.length_eq_zero.mp (by omega)
    subst hpnil
    subst hkeq
    rw [show (t ++ DELIMITER).take (t.length + 5) = t ++ DELIMITER from by
      rw [← hTlen]; exact List.take_length (t ++ DELIMITER)]
    rfl
  | cons c rest ih =>
    intro k p S' hk hp hps hcap
    by_cases hS' : S' = []
    · subst hS'
      have hlen := congrArg List.length hps
      rw [List.length_append, List.length_nil, List.length_drop, hSlen] at hlen
      have hkeq : k = t.length + 5 := by omega
      subst hkeq
      rw [encodeChannelsOk_nil_stream]
      rw [show (t ++ DELIMITER).take (t.length + 5) = t ++ DELIMITER from by
        rw [← hTlen]; exact List.take_length (t ++ DELIMITER)]
      exact decodeChannels_of_suffix b _ _ p hTsuf
    · have hS'pos : 1 ≤ S'.length := List.length_pos.mpr hS'
      have hlen := congrArg List.length hps
      rw [List.length_append, List.length_drop, hSlen] at hlen
      have hklt : k < t.length + 5 := by omega
      have hne : S'.isEmpty = false :=
        Bool.eq_false_iff.mpr fun h => hS' (List.isEmpty_iff.mp h)
      have hencEq : encodeChannelsOk b.toNat (c :: rest) S' =
          mkChannel ((to_binary c.val).take (8 - (S'.take b.toNat).length) ++
              S'.take b.toNat) ::
            encodeChannelsOk b.toNat rest (S'.drop b.toNat) := by
        simp [encodeChannelsOk, hne]
      have hstop : DELIMITER.isSuffixOf ((t ++ DELIMITER).take k) = false := by
        rw [Bool.eq_false_iff]
        intro hcon
        exact no_delim_suffix_take t h2 h3 k hklt (List.isSuffixOf_iff_suffix.mp hcon)
      have hmul : b.toNat * (c :: rest).length = b.toNat * rest.length + b.toNat := by
        rw [List.length_cons]; ring
      rw [hencEq]
      rcases le_or_lt S'.length b.toNat with hfin | hnf
      · -- final channel: the stream tail fits into this channel
        have hsum : p.length + S'.length = 8 := by omega
        have hkeq : k = t.length + 4 := by omega
        have hcond : DELIMITER.dropLast.isSuffixOf ((t ++ DELIMITER).take k) = true ∧
            8 ≤ toUsize b + p.length := by
          constructor
          · rw [List.isSuffixOf_iff_suffix, DELIMITER_dropLast_replicate]
            exact (hash4_suffix_take_iff t h2 h3 k hklt).mpr hkeq
          · rw [hbu]; omega
        have hskip : stepSkip b ((t ++ DELIMITER).take k) p = p.length := by
          rw [stepSkip, if_pos hcond]
        simp only [decodeChannels, hstop, Bool.false_eq_true, if_false, hskip]
        rw [if_neg (by omega : ¬ 8 < p.length)]
        have hch : S'.take b.toNat = S' := List.take_of_length_le hfin
        have hlist8 : ((to_binary c.val).take (8 - (S'.take b.toNat).length) ++
            S'.take b.toNat).length = 8 := by
          rw [hch, List.length_append, List.length_take, to_binary_length]
          omega
        have hdropbits : (to_binary (mkChannel ((to_binary c.val).take
            (8 - (S'.take b.toNat).length) ++ S'.take b.toNat)).val).drop p.length = S' := by
          rw [to_binary_mkChannel _ hlist8, hch]
          apply List.drop_left'
          rw [List.length_take, to_binary_length]
          omega
        rw [hdropbits]
        have hp8 : (p ++ S').length = 8 := by
          rw [List.length_append]; omega
        rw [if_pos (by rw [hp8] : 8 ≤ (p ++ S').length)]
        have hkB : k < ((t ++ DELIMITER).map Char.toNat).length := by
          rw [hBlen]; omega
        have hbyte : fromBits ((p ++ S').take 8) =
            ((t ++ DELIMITER).map Char.toNat).get ⟨k, hkB⟩ := by
          have htk : (p ++ S').take 8 = p ++ S' := List.take_of_length_le (by omega)
          rw [htk]
          conv_lhs => rw [hps]
          rw [show ((((t ++ DELIMITER).map Char.toNat).flatMap to_binary).drop (8 * k)) =
            ((((t ++ DELIMITER).map Char.toNat).flatMap to_binary).drop (8 * k)).take 8 from by
              rw [List.take_of_length_le]
              rw [List.length_drop, hSlen]
              omega]
          exact stream_byte _ k hkB hB256
        have hkT : k < (t ++ DELIMITER).length := by rw [hTlen]; omega
        have hchar : Char.ofNat (fromBits ((p ++ S').take 8)) =
            (t ++ DELIMITER).get ⟨k, hkT⟩ := by
          rw [hbyte]
          exact char_at_map (t ++ DELIMITER) k hkT hkB
        rw [hchar]
        have hsecret : (t ++ DELIMITER).take k ++ [(t ++ DELIMITER).get ⟨k, hkT⟩] =
            t ++ DELIMITER := by
          rw [List.get_eq_getElem, List.take_concat_get']
          rw [show k + 1 = t.length + 5 from by omega, ← hTlen]
          exact List.take_length (t ++ DELIMITER)
        rw [hsecret]
        have hdrop8 : (p ++ S').drop 8 = [] := List.drop_eq_nil_of_le (by omega)
        rw [hdrop8]
        have hS'drop : S'.drop b.toNat = [] := List.drop_eq_nil_of_le hfin
        rw [hS'drop, encodeChannelsOk_nil_stream]
        exact decodeChannels_of_suffix b rest _ [] hTsuf
      · -- non-final channel: the channel carries a full `bits`-bit chunk
        have hcondF : ¬ (DELIMITER.dropLast.isSuffixOf ((t ++ DELIMITER).take k) = true ∧
            8 ≤ toUsize b + p.length) := by
          rintro ⟨hsuf, hge⟩
          rw [List.isSuffixOf_iff_suffix, DELIMITER_dropLast_replicate] at hsuf
          have hkeq := (hash4_suffix_take_iff t h2 h3 k hklt).mp hsuf
          rw [hbu] at hge
          omega
        have hskip : stepSkip b ((t ++ DELIMITER).take k) p = 8 - b.toNat := by
          rw [stepSkip, if_neg hcondF, skip_cast b h1 h8]
        simp only [decodeChannels, hstop, Bool.false_eq_true, if_false, hskip]
        rw [if_neg (by omega : ¬ 8 < 8 - b.toNat)]
        have hchlen : (S'.take b.toNat).length = b.toNat := by
          rw [List.length_take]; omega
        have hlist8 : ((to_binary c.val).take (8 - (S'.take b.toNat).length) ++
            S'.take b.toNat).length = 8 := by
          rw [hchlen, List.length_append, List.length_take, to_binary_length, hchlen]
          omega
        have hdropbits : (to_binary (mkChannel ((to_binary c.val).take
            (8 - (S'.take b.toNat).length) ++ S'.take b.toNat)).val).drop (8 - b.toNat) =
            S'.take b.toNat := by
          rw [to_binary_mkChannel _ hlist8]
          apply List.drop_left'
          rw [List.length_take, to_binary_length, hchlen]
          omega
        rw [hdropbits]
        have hplen' : (p ++ S'.take b.toNat).length = p.length + b.toNat := by
          rw [List.length_append, hchlen]
        by_cases hbyte8 : 8 ≤ p.length + b.toNat
        · -- one byte completes at this channel
          rw [if_pos (by rw [hplen']; exact hbyte8)]
          have htk : (p ++ S'.take b.toNat).take 8 = (p ++ S').take 8 := by
            rw [List.take_append_eq_append_take, List.take_append_eq_append_take]
            congr 1
            rw [List.take_take, min_eq_left (by omega : 8 - p.length ≤ b.toNat)]
          have hkB : k < ((t ++ DELIMITER).map Char.toNat).length := by
            rw [hBlen]; omega
          have hbyte : fromBits ((p ++ S'.take b.toNat).take 8) =
              ((t ++ DELIMITER).map Char.toNat).get ⟨k, hkB⟩ := by
            rw [htk]
            conv_lhs => rw [hps]
            exact stream_byte _ k hkB hB256
          have hkT : k < (t ++ DELIMITER).length := by rw [hTlen]; omega
          have hchar : Char.ofNat (fromBits ((p ++ S'.take b.toNat).take 8)) =
              (t ++ DELIMITER).get ⟨k, hkT⟩ := by
            rw [hbyte]
            exact char_at_map (t ++ DELIMITER) k hkT hkB
          rw [hchar]
          have hsecret : (t ++ DELIMITER).take k ++ [(t ++ DELIMITER).get ⟨k, hkT⟩] =
              (t ++ DELIMITER).take (k + 1) := by
            rw [List.get_eq_getElem, List.take_concat_get']
          rw [hsecret]
          have hpend : (p ++ S'.take b.toNat).drop 8 =
              (S'.take b.toNat).drop (8 - p.length) := by
            rw [List.drop_append_eq_append_drop,
              List.drop_eq_nil_of_le (by omega : p.length ≤ 8), List.nil_append]
          rw [hpend]
          refine ih (k + 1) ((S'.take b.toNat).drop (8 - p.length)) (S'.drop b.toNat)
            (by omega) ?_ ?_ ?_
          · rw [List.length_drop, hchlen]
            omega
          · have hstep1 : (S'.take b.toNat).drop (8 - p.length) ++ S'.drop b.toNat =
                S'.drop (8 - p.length) := by
              conv_rhs => rw [← List.take_append_drop b.toNat S']
              rw [List.drop_append_eq_append_drop]
              have h0 : 8 - p.length - (S'.take b.toNat).length = 0 := by
                rw [hchlen]; omega
              rw [h0, List.drop_zero]
            have hdp : (p ++ S').drop 8 = S'.drop (8 - p.length) := by
              rw [List.drop_append_eq_append_drop,
                List.drop_eq_nil_of_le (by omega : p.length ≤ 8), List.nil_append]
            rw [hstep1, ← hdp, hps, List.drop_drop]
            congr 1
          · rw [List.length_drop]
            omega
        · -- no byte completes; the chunk joins the pending buffer
          rw [if_neg (by rw [hplen']; exact hbyte8)]
          refine ih k (p ++ S'.take b.toNat) (S'.drop b.toNat) hk ?_ ?_ ?_
          · rw [hplen']; omega
          · rw [List.append_assoc, List.take_append_drop]
            exact hps
          · rw [List.length_drop]
            omega

/-- Claim C1 counterexample: the round-trip fails as stated.  The payload
`"a#"` is ASCII and its serialized stream (56 bits) fits the reference 2×3
grid at `bits = 8` (7 chunks for 18 slots), yet decoding the encoded grid
returns `"a"`, not `"a#"`: the trailing `'#'` of the payload runs into the
delimiter, so the decoder stops one character early and strips `"#####"`
from `"a#####"`. -/
theorem round_trip_counterexample :
    is_encodable mockGrid (text_to_bits (['a', '#'] ++ DELIMITER)) 8 = true ∧
    encode_image mockGrid ['a', '#'] 8 =
      .ok [(97, 35, 35), (35, 35, 35), (35, 51, 15), (15, 55, 22), (155, 61, 87),
        (63, 30, 17)] ∧
    decode_image [(97, 35, 35), (35, 35, 35), (35, 51, 15), (15, 55, 22), (155, 61, 87),
      (63, 30, 17)] 8 = .ok ['a'] ∧
    (['a'] : List Char) ≠ ['a', '#'] := by
  refine ⟨by decide, by decide, by decide, by decide⟩

/-- Claim C1 (amended) — round-trip: for every bits-per-channel value in
`[1, 8]`, every pixel grid, and every ASCII payload `t` (all code points
below 128) that contains no `"####"` substring and does not end in `'#'`,
whose serialized payload-plus-delimiter bit-stream fits the grid's capacity
(its length is at most `bits × 3 × pixelCount`) and is accepted by the
program's `f64` capacity check, encoding succeeds and decoding the encoded
grid with the same bits value returns exactly `t`. -/
theorem round_trip_amended (b : Int) (h1 : 1 ≤ b) (h8 : b ≤ 8) (g : Grid) (t : List Char)
    (hascii : ∀ c ∈ t, c.toNat < 128)
    (hrun : ¬ (List.replicate 4 '#' <:+: t))
    (hend : ¬ (['#'] <:+ t))
    (hcheck : is_encodable g (text_to_bits (t ++ DELIMITER)) b = true)
    (hfits : (text_to_bits (t ++ DELIMITER)).length ≤ b.toNat * (3 * g.length)) :
    ∃ g', encode_image g t b = .ok g' ∧ decode_image g' b = .ok t := by
  have hb0 : ¬ b = 0 := by omega
  set s := text_to_bits (t ++ DELIMITER) with hsdef
  have hstream : s = ((t ++ DELIMITER).map Char.toNat).flatMap to_binary := by
    rw [hsdef, text_to_bits, utf8_ascii _ (ascii_append_delim t hascii)]
  have hcaple : s.length ≤ b.toNat * (channelsOf g).length := by
    rw [channelsOf_length]
    exact hfits
  refine ⟨regroup (encodeChannelsOk b.toNat (channelsOf g) s), ?_, ?_⟩
  · rw [encode_image, if_neg hb0, ← hsdef]
    simp only [hcheck, Bool.not_true, Bool.false_eq_true, if_false]
    rw [encodeChannels_eq_ok b h1 h8]
    rfl
  · rw [decode_image, if_neg hb0]
    have hchan : channelsOf (regroup (encodeChannelsOk b.toNat (channelsOf g) s)) =
        encodeChannelsOk b.toNat (channelsOf g) s := by
      apply channelsOf_regroup
      rw [encodeChannelsOk_length, channelsOf_length]
      exact Dvd.intro _ rfl
    rw [hchan]
    have hloop : decodeChannels b (encodeChannelsOk b.toNat (channelsOf g) s) [] [] =
        .ok (t ++ DELIMITER) := by
      have h0 : decodeChannels b (encodeChannelsOk b.toNat (channelsOf g) s)
          ((t ++ DELIMITER).take 0) [] = .ok (t ++ DELIMITER) := by
        refine decode_core b h1 h8 t hascii hrun hend (channelsOf g) 0 [] s ?_ ?_ ?_ ?_
        · omega
        · simp
        · rw [hstream]
          simp
        · exact hcaple
      simpa using h0
    rw [hloop]
    have hsufT : DELIMITER.isSuffixOf (t ++ DELIMITER) = true := by
      rw [List.isSuffixOf_iff_suffix]
      exact List.suffix_append t DELIMITER
    show (if DELIMITER.isSuffixOf (t ++ DELIMITER) = true then
        Except.ok (replaceDelim (t ++ DELIMITER)) else Except.error DecodeError.bitWidthMismatch) =
      Except.ok t
    rw [if_pos hsufT, replaceDelim_append_delim t hrun hend]

/-- Claim C1 witness: the amended round-trip at the repository's own fixture
(the 2×3 test grid, payload `"hi"`, `bits = 6`). -/
theorem round_trip_amended_witness :
    ∃ g', encode_image mockGrid ['h', 'i'] 6 = .ok g' ∧
      decode_image g' 6 = .ok ['h', 'i'] :=
  round_trip_amended 6 (by norm_num) (by norm_num) mockGrid ['h', 'i']
    (by decide) (by decide) (by decide) (by decide) (by decide)

/-- Claim C5 (code-bug evidence): the `f64` capacity computation loses the
claim's required exactness at large payload bit-lengths.  At
`payloadBitLength = 2 ^ 55 + 4` and `bits = 1`, the `count as f64` cast
rounds to `2 ^ 55` (ties-to-even, spacing 8 in `[2 ^ 55, 2 ^ 56)`); division
by `1.0` and `.ceil()` are then exact, so the source computes
`chunks = 2 ^ 55` and accepts a grid with `2 ^ 55 + 1` channel slots, while
the exact integer ceiling division the claim requires (`ceilDiv`, related
to the mathematical ceiling by `ceilDiv_eq_ceil`) computes `2 ^ 55 + 4` and
rejects it. -/
theorem f64_capacity_divergence :
    f64ofNat (2 ^ 55 + 4) = 2 ^ 55 ∧
    ceilDiv (2 ^ 55 + 4) 1 = 2 ^ 55 + 4 ∧
    ((2 ^ 55 : Int) ≤ 2 ^ 55 + 1) ∧
    ¬ (ceilDiv (2 ^ 55 + 4) 1 ≤ (2 ^ 55 + 1 : Int)) := by
  refine ⟨by decide, by decide, by norm_num, by decide⟩
